import Mathlib

/-!
Verification development for the `clean` file organizer (C++17, std::filesystem).

The repository moves regular files of a target directory into sub-folders,
either by extension category (`cleanFilesByType`, src/src/clean/cleanByType.cpp)
or by a name token (`cleanFilesByName`, src/src/clean/cleanByName.cpp), where
the token is user supplied (explicit branch) or auto-detected from file stems
(auto branch).

Shallow embedding choices:
* A directory is a `DirFS`: the list of regular file names in the target
  directory (in `directory_iterator` order) plus an association list from
  sub-folder name to the file names that folder contains.  Non-regular
  entries are filtered out by the C++ code at every scan, so they are not
  represented.
* `std::error_code` failures of `create_directory` and `rename` are modelled
  by a deterministic oracle `FsOracle`.  `fs::rename` into a path whose
  parent is not an existing directory always fails on a real filesystem;
  the model makes such a rename fail unconditionally.
* Strings are Lean `String`s; `std::tolower`/`isalnum` act on single ASCII
  bytes exactly as the C++ code does (unsigned-char arithmetic, "C" locale).
-/

namespace Clean

/-- ASCII alphanumeric test, mirroring `isalnum(static_cast<unsigned char>(ch))`
in the "C" locale as used by cleanByName.cpp line 171. -/
def isAlnumChar (c : Char) : Bool :=
  (decide ('0' ≤ c) && decide (c ≤ '9')) ||
  (decide ('a' ≤ c) && decide (c ≤ 'z')) ||
  (decide ('A' ≤ c) && decide (c ≤ 'Z'))

/-- One character of `std::tolower` on an unsigned char: ASCII uppercase is
shifted to lowercase, all other bytes are unchanged. -/
def lowerChar (c : Char) : Char :=
  if 'A' ≤ c ∧ c ≤ 'Z' then Char.ofNat (c.toNat + 32) else c

/-- Character-list version of the `toLower` helper of cleanByName.cpp. -/
def lowerStr (cs : List Char) : List Char := cs.map lowerChar

/-- The `toLower` helper of cleanByName.cpp (lines 41-47): lowercase copy. -/
def lower (s : String) : String := ⟨lowerStr s.data⟩

/-- Boolean prefix test on character lists. -/
def prefixOf : List Char → List Char → Bool
  | [], _ => true
  | _ :: _, [] => false
  | a :: as, b :: bs => if a = b then prefixOf as bs else false

/-- Boolean contiguous-substring test:
`substrOf n h = true` iff `std::string(h).find(n) != npos`. -/
def substrOf (needle : List Char) : List Char → Bool
  | [] => needle.isEmpty
  | c :: cs => prefixOf needle (c :: cs) || substrOf needle cs

/-- Split a file name at its last dot: returns `some (before, dotAndAfter)`
where `dotAndAfter` starts at the rightmost `.` of the name. -/
def lastDotSplit : List Char → Option (List Char × List Char)
  | [] => none
  | c :: rest =>
      match lastDotSplit rest with
      | some (b, a) => some (c :: b, a)
      | none => if c = '.' then some ([], '.' :: rest) else none

/-- `std::filesystem::path::extension()` on a bare file name: the substring
from the last dot to the end, except that `.`, `..` and names whose only dot
is the leading character (hidden files) have no extension. -/
def extensionOf (nm : String) : String :=
  if nm = "." ∨ nm = ".." then "" else
  match lastDotSplit nm.data with
  | none => ""
  | some ([], _) => ""
  | some (_, a) => ⟨a⟩

/-- `std::filesystem::path::stem()` on a bare file name: the complement of
`extensionOf`. -/
def stemOf (nm : String) : String :=
  if nm = "." ∨ nm = ".." then nm else
  match lastDotSplit nm.data with
  | none => nm
  | some ([], _) => nm
  | some (b, _) => ⟨b⟩

/-! ### Token extraction (cleanByName.cpp lines 157-192) -/

/-- The emission guard of the auto-detect tokenizer:
`token.size() >= 4 && ignoreSet.find(token) == ignoreSet.end()`. -/
def keep (ignore : List (List Char)) (t : List Char) : Bool :=
  decide (4 ≤ t.length) && decide (t ∉ ignore)

/-- The character loop of cleanByName.cpp lines 168-187, with accumulator
`tok`: alphanumeric characters are appended to `tok`; at a non-alphanumeric
character the accumulated run is emitted if it passes `keep`, and — exactly
as in the C++ source — `token.clear()` is executed only inside that emit
branch, so a run failing the guard stays in the accumulator; at the end of
the string the final accumulated run is emitted if it passes `keep`. -/
def emitTokens (ignore : List (List Char)) : List Char → List Char → List (List Char)
  | tok, [] => if keep ignore tok then [tok] else []
  | tok, c :: cs =>
      if isAlnumChar c then emitTokens ignore (tok ++ [c]) cs
      else if keep ignore tok then tok :: emitTokens ignore [] cs
      else emitTokens ignore tok cs

/-- All `tokenCount[...]++` emission events that one stem produces
(cleanByName.cpp lines 164-191): the loop emissions and final-token emission,
followed by the whole lowercased stem when it passes the same guard. -/
def stemEmissions (ignore : List (List Char)) (stem : String) : List (List Char) :=
  emitTokens ignore [] (lowerStr stem.data) ++
    (if keep ignore (lowerStr stem.data) then [lowerStr stem.data] else [])

/-- All emission events of one directory listing, in iteration order
(cleanByName.cpp lines 158-192; only regular files are listed). -/
def allEmissions (ignore : List (List Char)) (files : List String) : List (List Char) :=
  (files.map (fun f => stemEmissions ignore (stemOf f))).flatten

/-! ### Frequency counting and ranking (cleanByName.cpp lines 151-214) -/

/-- Number of emission events of a given token. -/
def countTok : List (List Char) → List Char → Nat
  | [], _ => 0
  | u :: us, t => (if u = t then 1 else 0) + countTok us t

/-- Strict lexicographic order on character lists: the `std::less<std::string>`
order of the `std::map<string,int> tokenCount` (byte order; the tokens here
are ASCII). -/
def lexLt : List Char → List Char → Bool
  | [], [] => false
  | [], _ :: _ => true
  | _ :: _, [] => false
  | a :: as, b :: bs => if a < b then true else if b < a then false else lexLt as bs

/-- Ordered insertion without duplication, building the key set of a
`std::map` keyed by `lexLt`. -/
def insertSorted (t : List Char) : List (List Char) → List (List Char)
  | [] => [t]
  | u :: us => if lexLt t u then t :: u :: us
               else if t = u then u :: us
               else u :: insertSorted t us

/-- The key list of `tokenCount` in `std::map` iteration order (ascending
lexicographic). -/
def mapKeys (es : List (List Char)) : List (List Char) :=
  es.foldl (fun ks t => insertSorted t ks) []

/-- The `common` vector of cleanByName.cpp lines 195-198: map entries whose
count is at least 2, in map (lexicographic) iteration order. -/
def commonTokens (es : List (List Char)) : List (List Char × Nat) :=
  (mapKeys es).filterMap
    (fun t => if 2 ≤ countTok es t then some (t, countTok es t) else none)

/-- Insert into a count-descending list, after all entries with a count
greater than or equal to the inserted one. -/
def insertByCount (p : List Char × Nat) : List (List Char × Nat) → List (List Char × Nat)
  | [] => [p]
  | q :: qs => if q.2 ≤ p.2 then p :: q :: qs else q :: insertByCount p qs

/-- The sort of cleanByName.cpp lines 201-203 with comparator
`a.second > b.second`.  The C++ source calls `std::sort`, which guarantees
the count-descending order but not stability; this model resolves ties
stably (input order preserved), the most deterministic refinement of that
contract. -/
def sortByCount (l : List (List Char × Nat)) : List (List Char × Nat) :=
  l.foldr insertByCount []

/-- The ranked token list the auto-detect branch iterates over
(cleanByName.cpp lines 195-215): `common` sorted by count descending and
truncated to `min(10, common.size())` entries. -/
def rankedTokens (ignore : List (List Char)) (files : List String) :
    List (List Char × Nat) :=
  sortByCount (commonTokens (allEmissions ignore files)) |>.take
    (min 10 (commonTokens (allEmissions ignore files)).length)

/-! ### Filesystem model -/

/-- The mutable directory state: regular files of the target directory in
iteration order, and the sub-folders with the file names they contain. -/
structure DirFS where
  files : List String
  folders : List (String × List String)
deriving DecidableEq, Repr

/-- First-match association lookup (the model of name resolution in the
folder list and of `std::map` lookup for extension tables). -/
def assocLookup {α : Type} : List (String × α) → String → Option α
  | [], _ => none
  | p :: rest, d => if p.1 = d then some p.2 else assocLookup rest d

/-- `fs::exists(directoryPath / d)`: true when a regular file or a sub-folder
of that name exists. -/
def existsDir (fs : DirFS) (d : String) : Bool :=
  decide (d ∈ fs.files) || (assocLookup fs.folders d).isSome

/-- `fs::exists(destDir / g)`: the destination folder exists and already
contains a file named `g`. -/
def destExists (fs : DirFS) (d g : String) : Bool :=
  match assocLookup fs.folders d with
  | some c => decide (g ∈ c)
  | none => false

/-- Successful `fs::create_directory(directoryPath / d)`: a new empty folder. -/
def addFolder (fs : DirFS) (d : String) : DirFS :=
  { fs with folders := fs.folders ++ [(d, [])] }

/-- Remove the (unique) entry of a file name from a listing. -/
def removeFile : List String → String → List String
  | [], _ => []
  | f :: rest, g => if f = g then rest else f :: removeFile rest g

/-- Successful `fs::rename(directoryPath / g, directoryPath / d / g)`:
the file leaves the target directory and appears in folder `d`. -/
def moveFile (fs : DirFS) (d g : String) : DirFS :=
  { files := removeFile fs.files g,
    folders := fs.folders.map (fun p => if p.1 = d then (p.1, p.2 ++ [g]) else p) }

/-- Deterministic failure oracle for the `std::error_code` outcomes of
`fs::create_directory` (by folder name) and `fs::rename` (by destination
folder and file name). -/
structure FsOracle where
  createFails : String → Bool
  renameFails : String → String → Bool

/-- Evolving run state: directory state plus the `moved`/`skipped` counters
and the `skippedFiles` vector that both operations maintain. -/
structure RunState where
  fs : DirFS
  moved : Nat
  skipped : Nat
  skippedFiles : List String
deriving DecidableEq, Repr

/-- The shared skip bookkeeping: `++skipped; skippedFiles.push_back(src.filename())`. -/
def bump (s : RunState) (f : String) : RunState :=
  { s with skipped := s.skipped + 1, skippedFiles := s.skippedFiles ++ [f] }

/-- One move attempt of a file `f` into folder `d` — the common pattern of
cleanByName.cpp lines 126-146 and 245-267 and cleanByType.cpp lines 123-146:
skip if the destination name already exists, otherwise attempt the rename
(which fails when the oracle says so, or when `d` is not an existing folder),
skipping on failure and counting a move on success. -/
def moveStep (o : FsOracle) (d : String) (s : RunState) (f : String) : RunState :=
  if destExists s.fs d f then bump s f
  else if (assocLookup s.fs.folders d).isNone ∨ o.renameFails d f then bump s f
  else { s with fs := moveFile s.fs d f, moved := s.moved + 1 }

/-! ### cleanFilesByType (cleanByType.cpp lines 46-147) -/

/-- Configuration of the by-type run: the dangerous extension list from
`getDangerousExts()` and the extension-to-category lookup built from
`getFileTypes()` (keys already lowercased, as built in lines 65-76). -/
structure TypeCfg where
  dangerous : List String
  extToType : List (String × String)

/-- Category of an extension: the `extToType` entry, defaulting to "Other"
(cleanByType.cpp lines 101-104). -/
def typeOfExt (cfg : TypeCfg) (ext : String) : String :=
  (assocLookup cfg.extToType ext).getD "Other"

/-- Destination category of a file: lookup of its lowercased extension. -/
def typeOf (cfg : TypeCfg) (f : String) : String :=
  typeOfExt cfg (lower (extensionOf f))

/-- Processing of one directory entry by cleanFilesByType
(cleanByType.cpp lines 79-147): dangerous-extension skip, lazy creation of
the category folder (skipping the file if creation fails), then the shared
move attempt. -/
def typeStep (cfg : TypeCfg) (o : FsOracle) (s : RunState) (f : String) : RunState :=
  if lower (extensionOf f) ∈ cfg.dangerous then bump s f
  else
    if existsDir s.fs (typeOf cfg f) then moveStep o (typeOf cfg f) s f
    else if o.createFails (typeOf cfg f) then bump s f
    else moveStep o (typeOf cfg f) { s with fs := addFolder s.fs (typeOf cfg f) } f

/-- The whole by-type operation on a valid directory: one pass over the
regular files, starting from zero counters. -/
def cleanFilesByType (cfg : TypeCfg) (o : FsOracle) (fs : DirFS) : RunState :=
  fs.files.foldl (typeStep cfg o) ⟨fs, 0, 0, []⟩

/-- The hardcoded fallback `DEFAULT_DANGEROUS_EXTS` of
src/include (dangerousExts.hpp lines 180-187). -/
def DEFAULT_DANGEROUS_EXTS : List String :=
  [".exe", ".dll", ".com", ".msi", ".bin", ".sys",
   ".bat", ".cmd", ".vbs", ".js", ".jse", ".wsf", ".wsh",
   ".ps1", ".psm1", ".sh", ".bash", ".zsh",
   ".lnk", ".inf", ".msu", ".msp",
   ".docm", ".xlsm", ".pptm",
   ".scr", ".pif", ".jar", ".reg"]

/-! ### cleanFilesByName, explicit branch (cleanByName.cpp lines 87-147) -/

/-- Folder-name sanitization of the explicit branch (lines 110-113): path
separators are replaced by underscores. -/
def sanitizeName (s : String) : String :=
  ⟨s.data.map (fun c => if c = '/' ∨ c = '\\' then '_' else c)⟩

/-- The match scan of the explicit branch (lines 90-99): regular files whose
lowercased name contains the lowercased query. -/
def nameMatches (fs : DirFS) (name : String) : List String :=
  fs.files.filter (fun f => substrOf (lower name).data (lower f).data)

/-- The explicit-name branch: collect the files whose lowercased name
contains the lowercased query, return unchanged on zero matches, otherwise
create the sanitized destination folder if needed (aborting the branch if
creation fails) and run the move attempts over the match list. -/
def byNameExplicit (o : FsOracle) (fs : DirFS) (name : String) : RunState :=
  if nameMatches fs name = [] then ⟨fs, 0, 0, []⟩
  else
    if existsDir fs (sanitizeName name) then
      (nameMatches fs name).foldl (moveStep o (sanitizeName name)) ⟨fs, 0, 0, []⟩
    else if o.createFails (sanitizeName name) then ⟨fs, 0, 0, []⟩
    else (nameMatches fs name).foldl (moveStep o (sanitizeName name))
      ⟨addFolder fs (sanitizeName name), 0, 0, []⟩

/-! ### cleanFilesByName, auto-detect branch (cleanByName.cpp lines 148-269) -/

/-- The live re-scan of one ranked token (lines 219-228): regular files whose
lowercased file name contains the token, with the defensive re-check that the
token is not ignored. -/
def tokenMatches (ignore : List (List Char)) (fs : DirFS) (tok : List Char) :
    List String :=
  fs.files.filter (fun f => substrOf tok (lower f).data && decide (tok ∉ ignore))

/-- Processing of one ranked token (lines 215-268): skip the token entirely
when fewer than two files match; otherwise create the token-named folder if
needed (logging and continuing with the next token if creation fails) and
run the move attempts over the found list. -/
def tokenStep (o : FsOracle) (ignore : List (List Char)) (s : RunState)
    (tok : List Char) : RunState :=
  if (tokenMatches ignore s.fs tok).length < 2 then s
  else
    if existsDir s.fs ⟨tok⟩ then (tokenMatches ignore s.fs tok).foldl (moveStep o ⟨tok⟩) s
    else if o.createFails ⟨tok⟩ then s
    else (tokenMatches ignore s.fs tok).foldl (moveStep o ⟨tok⟩)
      { s with fs := addFolder s.fs ⟨tok⟩ }

/-- The auto-detect branch: extract and rank tokens from the initial listing,
then process the ranked tokens in order, starting from zero counters. -/
def byNameAuto (o : FsOracle) (ignore : List (List Char)) (fs : DirFS) : RunState :=
  ((rankedTokens ignore fs.files).map Prod.fst).foldl (tokenStep o ignore) ⟨fs, 0, 0, []⟩

/-- The whole by-name operation (cleanByName.cpp lines 73-284): the explicit
branch when the user typed a non-empty name, the auto-detect branch on an
empty line. -/
def cleanFilesByName (o : FsOracle) (ignore : List (List Char)) (fs : DirFS)
    (name : String) : RunState :=
  if name = "" then byNameAuto o ignore fs else byNameExplicit o fs name

/-! ### Claim-side reference definitions

The next definitions are transcribed from the wording of the claims (spec
sections 4.1 and the RankedToken data model), not from the C++ source; they
exist only to be compared with the source-derived definitions above. -/

/-- Transcribed from the C1 claim wording: the maximal contiguous
alphanumeric runs of a character string, accumulating runs and resetting
the accumulator at every non-alphanumeric boundary. -/
def runsOf : List Char → List Char → List (List Char)
  | acc, [] => if acc = [] then [] else [acc]
  | acc, c :: cs =>
      if isAlnumChar c then runsOf (acc ++ [c]) cs
      else if acc = [] then runsOf [] cs
      else acc :: runsOf [] cs

/-- The maximal contiguous alphanumeric runs of a string. -/
def maximalRuns (cs : List Char) : List (List Char) := runsOf [] cs

/-- Transcribed from the C1 claim wording: emit exactly the maximal runs
that are at least 4 long and not stop words, plus the whole lowercased stem
under the same guard. -/
def specStemCandidates (ignore : List (List Char)) (stem : String) : List (List Char) :=
  (maximalRuns (lowerStr stem.data)).filter (keep ignore) ++
    (if keep ignore (lowerStr stem.data) then [lowerStr stem.data] else [])

/-- Transcribed from the C4 claim wording: the distinct tokens in first
encounter order. -/
def firstSeen (es : List (List Char)) : List (List Char) :=
  es.foldl (fun acc t => if t ∈ acc then acc else acc ++ [t]) []

/-- Transcribed from the C4 claim wording: the candidates (count at least
two) listed in encounter order with their counts. -/
def claimCommon (es : List (List Char)) : List (List Char × Nat) :=
  (firstSeen es).filterMap
    (fun t => if 2 ≤ countTok es t then some (t, countTok es t) else none)

/-- Transcribed from the C4 claim wording: a stable count-descending sort of
the encounter-ordered candidates, truncated to the top ten. -/
def claimRanked (es : List (List Char)) : List (List Char × Nat) :=
  sortByCount (claimCommon es) |>.take (min 10 (claimCommon es).length)

/-- The four persistent reasons for which the by-type loop skips a file
without moving it: dangerous extension; category folder absent and its
creation failing; name conflict in the destination; rename failure with the
destination folder present.  Each is stable under further processing, which
drives the analysis of a second by-type run. -/
def Stuck (cfg : TypeCfg) (o : FsOracle) (fs : DirFS) (f : String) : Prop :=
  lower (extensionOf f) ∈ cfg.dangerous
  ∨ (existsDir fs (typeOf cfg f) = false ∧ o.createFails (typeOf cfg f) = true)
  ∨ destExists fs (typeOf cfg f) f = true
  ∨ ((assocLookup fs.folders (typeOf cfg f)).isSome
      ∧ destExists fs (typeOf cfg f) f = false
      ∧ o.renameFails (typeOf cfg f) f = true)

/-! ## Helper lemmas about the list primitives -/

theorem mem_of_mem_removeFile {l : List String} {g a : String}
    (h : a ∈ removeFile l g) : a ∈ l := by
  induction l with
  | nil => simp [removeFile] at h
  | cons f rest ih =>
      by_cases hfg : f = g
      · simp only [removeFile, if_pos hfg] at h
        exact List.mem_cons_of_mem _ h
      · simp only [removeFile, if_neg hfg, List.mem_cons] at h
        rcases h with h | h
        · exact h ▸ List.mem_cons_self _ _
        · exact List.mem_cons_of_mem _ (ih h)

theorem mem_removeFile_of_ne {l : List String} {g a : String}
    (ha : a ∈ l) (hne : a ≠ g) : a ∈ removeFile l g := by
  induction l with
  | nil => simp at ha
  | cons f rest ih =>
      by_cases hfg : f = g
      · simp only [removeFile, if_pos hfg]
        rcases List.mem_cons.mp ha with h | h
        · exact absurd (h.trans hfg) hne
        · exact h
      · simp only [removeFile, if_neg hfg, List.mem_cons]
        rcases List.mem_cons.mp ha with h | h
        · exact Or.inl h
        · exact Or.inr (ih h)

theorem not_mem_removeFile_self {l : List String} (hl : l.Nodup) (g : String) :
    g ∉ removeFile l g := by
  induction l with
  | nil => simp [removeFile]
  | cons f rest ih =>
      rcases List.nodup_cons.mp hl with ⟨hf, hrest⟩
      by_cases hfg : f = g
      · simp only [removeFile, if_pos hfg]
        exact hfg ▸ hf
      · simp only [removeFile, if_neg hfg, List.mem_cons]
        rintro (h | h)
        · exact hfg h.symm
        · exact ih hrest h

theorem nodup_removeFile {l : List String} (hl : l.Nodup) (g : String) :
    (removeFile l g).Nodup := by
  induction l with
  | nil => simp [removeFile]
  | cons f rest ih =>
      rcases List.nodup_cons.mp hl with ⟨hf, hrest⟩
      by_cases hfg : f = g
      · simpa [removeFile, if_pos hfg] using hrest
      · simp only [removeFile, if_neg hfg]
        exact List.nodup_cons.mpr
          ⟨fun h => hf (mem_of_mem_removeFile h), ih hrest⟩

theorem assocLookup_append_singleton {α : Type} (l : List (String × α))
    (t : String) (v : α) (d : String) :
    assocLookup (l ++ [(t, v)]) d =
      match assocLookup l d with
      | some c => some c
      | none => if t = d then some v else none := by
  induction l with
  | nil => simp [assocLookup]
  | cons p rest ih =>
      by_cases hp : p.1 = d
      · simp [assocLookup, hp]
      · simpa [assocLookup, hp] using ih

theorem assocLookup_map_update (l : List (String × List String))
    (d : String) (g : String) (e : String) :
    assocLookup (l.map (fun p => if p.1 = d then (p.1, p.2 ++ [g]) else p)) e =
      (assocLookup l e).map (fun c => if e = d then c ++ [g] else c) := by
  induction l with
  | nil => simp [assocLookup]
  | cons p rest ih =>
      obtain ⟨k, v⟩ := p
      by_cases hk : k = d
      · subst hk
        by_cases he : k = e
        · subst he; simp [assocLookup]
        · simp [assocLookup, he, ih]
      · by_cases he : k = e
        · subst he
          simp [assocLookup, hk, Ne.symm hk]
        · simp [assocLookup, hk, he, ih]

/-! ## Effect lemmas for the directory operations -/

theorem files_addFolder (fs : DirFS) (t : String) :
    (addFolder fs t).files = fs.files := rfl

theorem files_moveFile (fs : DirFS) (d g : String) :
    (moveFile fs d g).files = removeFile fs.files g := rfl

theorem lookup_addFolder_of_some {fs : DirFS} {d : String} {c : List String}
    (h : assocLookup fs.folders d = some c) (t : String) :
    assocLookup (addFolder fs t).folders d = some c := by
  show assocLookup (fs.folders ++ [(t, [])]) d = some c
  rw [assocLookup_append_singleton, h]

theorem lookup_addFolder_of_none {fs : DirFS} {d : String}
    (h : assocLookup fs.folders d = none) (t : String) :
    assocLookup (addFolder fs t).folders d = if t = d then some [] else none := by
  show assocLookup (fs.folders ++ [(t, [])]) d = _
  rw [assocLookup_append_singleton, h]

theorem lookup_moveFile (fs : DirFS) (d g e : String) :
    assocLookup (moveFile fs d g).folders e =
      (assocLookup fs.folders e).map (fun c => if e = d then c ++ [g] else c) :=
  assocLookup_map_update fs.folders d g e

theorem destExists_addFolder {fs : DirFS} {d g : String}
    (h : destExists fs d g = true) (t : String) :
    destExists (addFolder fs t) d g = true := by
  rcases hc : assocLookup fs.folders d with _ | c
  · simp [destExists, hc] at h
  · have h2 : g ∈ c := by simpa [destExists, hc] using h
    simp [destExists, lookup_addFolder_of_some hc t, h2]

theorem destExists_moveFile {fs : DirFS} {d g : String}
    (h : destExists fs d g = true) (t f : String) :
    destExists (moveFile fs t f) d g = true := by
  rcases hc : assocLookup fs.folders d with _ | c
  · simp [destExists, hc] at h
  · have h2 : g ∈ c := by simpa [destExists, hc] using h
    by_cases hdt : d = t
    · subst hdt
      simp [destExists, lookup_moveFile, hc, List.mem_append, h2]
    · simp [destExists, lookup_moveFile, hc, hdt, h2]

/-! ## Behavior of the shared move attempt -/

theorem moveStep_of_destExists {o : FsOracle} {d : String} {s : RunState} {f : String}
    (h : destExists s.fs d f = true) : moveStep o d s f = bump s f := by
  simp [moveStep, h]

theorem moveStep_fs_cases (o : FsOracle) (d : String) (s : RunState) (f : String) :
    (moveStep o d s f).fs = s.fs ∨ (moveStep o d s f).fs = moveFile s.fs d f := by
  unfold moveStep
  split
  · exact Or.inl rfl
  · split
    · exact Or.inl rfl
    · exact Or.inr rfl

theorem moveStep_destExists_mono {o : FsOracle} {d' : String} {s : RunState} {f : String}
    {d g : String} (h : destExists s.fs d g = true) :
    destExists (moveStep o d' s f).fs d g = true := by
  rcases moveStep_fs_cases o d' s f with hc | hc
  · rw [hc]; exact h
  · rw [hc]; exact destExists_moveFile h d' f

theorem moveStep_skippedFiles_mono (o : FsOracle) (d : String) (s : RunState)
    (f a : String) (h : a ∈ s.skippedFiles) : a ∈ (moveStep o d s f).skippedFiles := by
  unfold moveStep bump
  split
  · exact List.mem_append_left _ h
  · split
    · exact List.mem_append_left _ h
    · exact h

theorem moveStep_files_sub {o : FsOracle} {d : String} {s : RunState} {f a : String}
    (h : a ∈ (moveStep o d s f).fs.files) : a ∈ s.fs.files := by
  rcases moveStep_fs_cases o d s f with hc | hc
  · rwa [hc] at h
  · rw [hc, files_moveFile] at h
    exact mem_of_mem_removeFile h

theorem moveStep_files_of_ne {o : FsOracle} {d : String} {s : RunState} {f a : String}
    (ha : a ∈ s.fs.files) (hne : a ≠ f) : a ∈ (moveStep o d s f).fs.files := by
  rcases moveStep_fs_cases o d s f with hc | hc
  · rwa [hc]
  · rw [hc, files_moveFile]
    exact mem_removeFile_of_ne ha hne

/-- A generic preservation principle for the `foldl` loops of the run. -/
theorem foldl_pres {α : Type} {P : RunState → Prop} (step : RunState → α → RunState)
    (h : ∀ s x, P s → P (step s x)) :
    ∀ (L : List α) (s : RunState), P s → P (L.foldl step s)
  | [], _, hs => hs
  | x :: L, s, hs => foldl_pres step h L (step s x) (h s x hs)

/-! ## The skipped counter stays in lockstep with the skipped-file list -/

theorem bump_skip_len {s : RunState} {f : String}
    (h : s.skipped = s.skippedFiles.length) :
    (bump s f).skipped = (bump s f).skippedFiles.length := by
  simp [bump, h]

theorem moveStep_skip_len (o : FsOracle) (d : String) (s : RunState) (f : String)
    (h : s.skipped = s.skippedFiles.length) :
    (moveStep o d s f).skipped = (moveStep o d s f).skippedFiles.length := by
  unfold moveStep
  split
  · exact bump_skip_len h
  · split
    · exact bump_skip_len h
    · exact h

theorem typeStep_skip_len (cfg : TypeCfg) (o : FsOracle) (s : RunState) (f : String)
    (h : s.skipped = s.skippedFiles.length) :
    (typeStep cfg o s f).skipped = (typeStep cfg o s f).skippedFiles.length := by
  unfold typeStep
  split
  · exact bump_skip_len h
  · split
    · exact moveStep_skip_len _ _ _ _ h
    · split
      · exact bump_skip_len h
      · exact moveStep_skip_len _ _ _ _ h

theorem tokenStep_skip_len (o : FsOracle) (ignore : List (List Char)) (s : RunState)
    (tok : List Char) (h : s.skipped = s.skippedFiles.length) :
    (tokenStep o ignore s tok).skipped = (tokenStep o ignore s tok).skippedFiles.length := by
  unfold tokenStep
  split
  · exact h
  · split
    · exact foldl_pres _ (fun s x hs => moveStep_skip_len _ _ s x hs) _ _ h
    · split
      · exact h
      · exact foldl_pres _ (fun s x hs => moveStep_skip_len _ _ s x hs) _ _ h

/-! ## Monotonicity of folder contents (no file in a destination ever vanishes) -/

theorem typeStep_destExists_mono (cfg : TypeCfg) (o : FsOracle) {s : RunState}
    {f d g : String} (h : destExists s.fs d g = true) :
    destExists (typeStep cfg o s f).fs d g = true := by
  unfold typeStep
  split
  · exact h
  · split
    · exact moveStep_destExists_mono h
    · split
      · exact h
      · exact moveStep_destExists_mono (destExists_addFolder h _)

theorem tokenStep_destExists_mono (o : FsOracle) (ignore : List (List Char))
    {s : RunState} {tok : List Char} {d g : String} (h : destExists s.fs d g = true) :
    destExists (tokenStep o ignore s tok).fs d g = true := by
  unfold tokenStep
  split
  · exact h
  · split
    · exact foldl_pres (P := fun st => destExists st.fs d g = true) _
        (fun s x hs => moveStep_destExists_mono hs) _ _ h
    · split
      · exact h
      · exact foldl_pres (P := fun st => destExists st.fs d g = true) _
          (fun s x hs => moveStep_destExists_mono hs) _ _ (destExists_addFolder h _)

/-! ## Tokenizer lemmas -/

theorem emitTokens_sound (ignore : List (List Char)) :
    ∀ (cs tok t : List Char), t ∈ emitTokens ignore tok cs → keep ignore t = true
  | [], tok, t, h => by
      unfold emitTokens at h
      split at h
      next hk => rw [List.mem_singleton.mp h]; exact hk
      next => simp at h
  | c :: cs, tok, t, h => by
      unfold emitTokens at h
      split at h
      · exact emitTokens_sound ignore cs _ t h
      · split at h
        next hk =>
          rcases List.mem_cons.mp h with rfl | h
          · exact hk
          · exact emitTokens_sound ignore cs [] t h
        next => exact emitTokens_sound ignore cs tok t h

theorem stemEmissions_sound (ignore : List (List Char)) (stem : String)
    (t : List Char) (h : t ∈ stemEmissions ignore stem) : keep ignore t = true := by
  unfold stemEmissions at h
  rcases List.mem_append.mp h with h | h
  · exact emitTokens_sound ignore _ _ t h
  · split at h
    next hk => rw [List.mem_singleton.mp h]; exact hk
    next => simp at h

theorem emitTokens_eq_runs (ignore : List (List Char)) :
    ∀ (cs tok : List Char), (∀ r ∈ runsOf tok cs, keep ignore r = true) →
      emitTokens ignore tok cs = runsOf tok cs
  | [], tok, h => by
      by_cases htok : tok = []
      · subst htok
        simp [emitTokens, runsOf, keep]
      · have hmem : tok ∈ runsOf tok [] := by simp [runsOf, htok]
        have hk := h tok hmem
        simp [emitTokens, runsOf, htok, hk]
  | c :: cs, tok, h => by
      by_cases hc : isAlnumChar c = true
      · have hrw : runsOf tok (c :: cs) = runsOf (tok ++ [c]) cs := by
          simp [runsOf, hc]
        have h2 : ∀ r ∈ runsOf (tok ++ [c]) cs, keep ignore r = true := by
          intro r hr
          exact h r (hrw ▸ hr)
        have := emitTokens_eq_runs ignore cs (tok ++ [c]) h2
        simp [emitTokens, hc, this, hrw]
      · by_cases htok : tok = []
        · subst htok
          have hrw : runsOf [] (c :: cs) = runsOf [] cs := by simp [runsOf, hc]
          have h2 : ∀ r ∈ runsOf [] cs, keep ignore r = true := by
            intro r hr
            exact h r (hrw ▸ hr)
          have := emitTokens_eq_runs ignore cs [] h2
          simp [emitTokens, hc, keep, this, hrw]
        · have hrw : runsOf tok (c :: cs) = tok :: runsOf [] cs := by
            simp [runsOf, hc, htok]
          have hk : keep ignore tok = true := h tok (by rw [hrw]; exact List.mem_cons_self _ _)
          have h2 : ∀ r ∈ runsOf [] cs, keep ignore r = true := by
            intro r hr
            exact h r (by rw [hrw]; exact List.mem_cons_of_mem _ hr)
          have := emitTokens_eq_runs ignore cs [] h2
          simp [emitTokens, hc, hk, this, hrw]

/-! ## Candidate-set lemmas -/

theorem mem_insertSorted {t a : List Char} : ∀ (ks : List (List Char)),
    a ∈ insertSorted t ks ↔ a = t ∨ a ∈ ks
  | [] => by simp [insertSorted]
  | u :: us => by
      unfold insertSorted
      split
      · simp [List.mem_cons]
      · split
        next heq =>
          subst heq
          simp [List.mem_cons]
        next =>
          simp only [List.mem_cons, mem_insertSorted us]
          tauto

theorem mem_foldl_insertSorted :
    ∀ (es : List (List Char)) (ks : List (List Char)) (a : List Char),
      a ∈ es.foldl (fun ks t => insertSorted t ks) ks ↔ a ∈ ks ∨ a ∈ es
  | [], ks, a => by simp
  | t :: es, ks, a => by
      rw [List.foldl_cons, mem_foldl_insertSorted es _ a, mem_insertSorted]
      simp [List.mem_cons]
      tauto

theorem mem_mapKeys {es : List (List Char)} {a : List Char} :
    a ∈ mapKeys es ↔ a ∈ es := by
  unfold mapKeys
  rw [mem_foldl_insertSorted]
  simp

theorem mem_of_countTok_pos {es : List (List Char)} {t : List Char}
    (h : 1 ≤ countTok es t) : t ∈ es := by
  induction es with
  | nil => simp [countTok] at h
  | cons u us ih =>
      by_cases hu : u = t
      · exact hu ▸ List.mem_cons_self _ _
      · unfold countTok at h
        rw [if_neg hu] at h
        simp only [Nat.zero_add] at h
        exact List.mem_cons_of_mem _ (ih h)

/-! ## Ranking-order lemmas -/

theorem mem_insertByCount {p a : List Char × Nat} :
    ∀ (l : List (List Char × Nat)), a ∈ insertByCount p l ↔ a = p ∨ a ∈ l
  | [] => by simp [insertByCount]
  | q :: qs => by
      unfold insertByCount
      split
      · simp [List.mem_cons]
      · simp only [List.mem_cons, mem_insertByCount qs]
        tauto

theorem pairwise_insertByCount {p : List Char × Nat} :
    ∀ {l : List (List Char × Nat)},
      l.Pairwise (fun x y => y.2 ≤ x.2) →
      (insertByCount p l).Pairwise (fun x y => y.2 ≤ x.2)
  | [], _ => by simp [insertByCount]
  | q :: qs, h => by
      rcases List.pairwise_cons.mp h with ⟨hq, hqs⟩
      unfold insertByCount
      split
      next hle =>
        refine List.pairwise_cons.mpr ⟨?_, h⟩
        intro y hy
        rcases List.mem_cons.mp hy with rfl | hy
        · exact hle
        · exact le_trans (hq y hy) hle
      next hgt =>
        push_neg at hgt
        refine List.pairwise_cons.mpr ⟨?_, pairwise_insertByCount hqs⟩
        intro y hy
        rcases (mem_insertByCount _).mp hy with rfl | hy
        · exact le_of_lt hgt
        · exact hq y hy

theorem pairwise_sortByCount (l : List (List Char × Nat)) :
    (sortByCount l).Pairwise (fun x y => y.2 ≤ x.2) := by
  induction l with
  | nil => simp [sortByCount]
  | cons p ps ih =>
      simp only [sortByCount, List.foldr_cons] at *
      exact pairwise_insertByCount ih

theorem mem_sortByCount {a : List Char × Nat} {l : List (List Char × Nat)} :
    a ∈ sortByCount l ↔ a ∈ l := by
  induction l with
  | nil => simp [sortByCount]
  | cons p ps ih =>
      simp only [sortByCount, List.foldr_cons] at *
      rw [mem_insertByCount]
      simp only [List.mem_cons, ih]

theorem pairwise_take {α : Type} {R : α → α → Prop} :
    ∀ (n : Nat) (l : List α), l.Pairwise R → (l.take n).Pairwise R
  | 0, l, _ => by simp
  | _ + 1, [], _ => by simp
  | n + 1, a :: l, h => by
      rcases List.pairwise_cons.mp h with ⟨ha, hl⟩
      rw [List.take_succ_cons]
      exact List.pairwise_cons.mpr
        ⟨fun y hy => ha y (List.take_subset n l hy), pairwise_take n l hl⟩

/-! ## Per-file behavior of the by-type loop -/

theorem typeStep_dangerous {cfg : TypeCfg} {o : FsOracle} {s : RunState} {f : String}
    (hd : lower (extensionOf f) ∈ cfg.dangerous) :
    typeStep cfg o s f = bump s f := by
  simp [typeStep, hd]

theorem typeStep_files_sub {cfg : TypeCfg} {o : FsOracle} {s : RunState} {f a : String}
    (h : a ∈ (typeStep cfg o s f).fs.files) : a ∈ s.fs.files := by
  unfold typeStep at h
  split at h
  · exact h
  · split at h
    · exact moveStep_files_sub h
    · split at h
      · exact h
      · exact moveStep_files_sub
          (s := { s with fs := addFolder s.fs (typeOf cfg f) }) h

theorem typeStep_files_of_ne {cfg : TypeCfg} {o : FsOracle} {s : RunState} {f a : String}
    (ha : a ∈ s.fs.files) (hne : a ≠ f) : a ∈ (typeStep cfg o s f).fs.files := by
  unfold typeStep
  split
  · exact ha
  · split
    · exact moveStep_files_of_ne ha hne
    · split
      · exact ha
      · exact moveStep_files_of_ne ha hne

theorem typeStep_skippedFiles_mono {cfg : TypeCfg} {o : FsOracle} (s : RunState)
    (f : String) {a : String} (h : a ∈ s.skippedFiles) :
    a ∈ (typeStep cfg o s f).skippedFiles := by
  unfold typeStep
  split
  · exact List.mem_append_left _ h
  · split
    · exact moveStep_skippedFiles_mono _ _ _ _ _ h
    · split
      · exact List.mem_append_left _ h
      · exact moveStep_skippedFiles_mono _ _ _ _ _ h

theorem foldl_typeStep_keep (cfg : TypeCfg) (o : FsOracle) {a : String} :
    ∀ (L : List String) (s : RunState), a ∉ L → a ∈ s.fs.files →
      a ∈ (L.foldl (typeStep cfg o) s).fs.files
  | [], _, _, ha => ha
  | g :: L, s, hm, ha => by
      have hg : a ≠ g := fun h => hm (h ▸ List.mem_cons_self _ _)
      exact foldl_typeStep_keep cfg o L _ (fun h => hm (List.mem_cons_of_mem _ h))
        (typeStep_files_of_ne ha hg)

/-! ## Stability of skip reasons in the by-type run -/

theorem isSome_of_destExists {fs : DirFS} {d g : String}
    (h : destExists fs d g = true) : (assocLookup fs.folders d).isSome = true := by
  rcases hc : assocLookup fs.folders d with _ | c
  · simp [destExists, hc] at h
  · simp

theorem existsDir_of_isSome {fs : DirFS} {d : String}
    (h : (assocLookup fs.folders d).isSome = true) : existsDir fs d = true := by
  simp [existsDir, h]

theorem existsDir_false_addFolder {fs : DirFS} {d : String}
    (h : existsDir fs d = false) {t : String} (ht : t ≠ d) :
    existsDir (addFolder fs t) d = false := by
  have hmem : ¬ d ∈ fs.files := by
    intro hd
    simp [existsDir, hd] at h
  have hnone : assocLookup fs.folders d = none := by
    rcases hc : assocLookup fs.folders d with _ | c
    · rfl
    · simp [existsDir, hc] at h
  have h2 : assocLookup (addFolder fs t).folders d = none := by
    rw [lookup_addFolder_of_none hnone, if_neg ht]
  simp [existsDir, h2, files_addFolder, hmem]

theorem existsDir_false_moveFile {fs : DirFS} {d : String}
    (h : existsDir fs d = false) (t m : String) :
    existsDir (moveFile fs t m) d = false := by
  have hmem : ¬ d ∈ fs.files := by
    intro hd
    simp [existsDir, hd] at h
  have hnone : assocLookup fs.folders d = none := by
    rcases hc : assocLookup fs.folders d with _ | c
    · rfl
    · simp [existsDir, hc] at h
  have hmem2 : ¬ d ∈ (moveFile fs t m).files := by
    rw [files_moveFile]
    exact fun hd => hmem (mem_of_mem_removeFile hd)
  simp [existsDir, lookup_moveFile, hnone, hmem2]

theorem destExists_false_addFolder {fs : DirFS} {d g : String}
    (h : destExists fs d g = false) (t : String) :
    destExists (addFolder fs t) d g = false := by
  rcases hc : assocLookup fs.folders d with _ | c
  · by_cases ht : t = d
    · simp [destExists, lookup_addFolder_of_none hc, ht]
    · simp [destExists, lookup_addFolder_of_none hc, ht]
  · have h2 : ¬ g ∈ c := by
      intro hg
      simp [destExists, hc, hg] at h
    simp [destExists, lookup_addFolder_of_some hc t, h2]

theorem destExists_false_moveFile {fs : DirFS} {d g : String}
    (h : destExists fs d g = false) {m : String} (hm : g ≠ m) (t : String) :
    destExists (moveFile fs t m) d g = false := by
  rcases hc : assocLookup fs.folders d with _ | c
  · simp [destExists, lookup_moveFile, hc]
  · have h2 : ¬ g ∈ c := by
      intro hg
      simp [destExists, hc, hg] at h
    by_cases hdt : d = t
    · subst hdt
      simp [destExists, lookup_moveFile, hc, List.mem_append, h2, hm]
    · simp [destExists, lookup_moveFile, hc, hdt, h2]

theorem isSome_addFolder {fs : DirFS} {d : String}
    (h : (assocLookup fs.folders d).isSome = true) (t : String) :
    (assocLookup (addFolder fs t).folders d).isSome = true := by
  obtain ⟨c, hc⟩ := Option.isSome_iff_exists.mp h
  simp [lookup_addFolder_of_some hc t]

theorem isSome_moveFile {fs : DirFS} {d : String}
    (h : (assocLookup fs.folders d).isSome = true) (t m : String) :
    (assocLookup (moveFile fs t m).folders d).isSome = true := by
  obtain ⟨c, hc⟩ := Option.isSome_iff_exists.mp h
  simp [lookup_moveFile, hc]

theorem stuck_step {cfg : TypeCfg} {o : FsOracle} {s : RunState} {f : String}
    (h : Stuck cfg o s.fs f) : typeStep cfg o s f = bump s f := by
  by_cases hd : lower (extensionOf f) ∈ cfg.dangerous
  · simp [typeStep, hd]
  · rcases h with h | ⟨he, hc⟩ | h | ⟨hsome, hne, hr⟩
    · exact absurd h hd
    · simp [typeStep, hd, he, hc]
    · have hex := existsDir_of_isSome (isSome_of_destExists h)
      simp [typeStep, hd, hex, moveStep, h]
    · have hex := existsDir_of_isSome hsome
      simp [typeStep, hd, hex, moveStep, hne, hr]

theorem stuck_addFolder {cfg : TypeCfg} {o : FsOracle} {fs : DirFS} {f : String}
    (h : Stuck cfg o fs f) {t : String} (ht : o.createFails t = false) :
    Stuck cfg o (addFolder fs t) f := by
  rcases h with h | ⟨he, hc⟩ | h | ⟨hsome, hne, hr⟩
  · exact Or.inl h
  · have htne : t ≠ typeOf cfg f := by
      intro hteq
      rw [hteq, hc] at ht
      cases ht
    exact Or.inr (Or.inl ⟨existsDir_false_addFolder he htne, hc⟩)
  · exact Or.inr (Or.inr (Or.inl (destExists_addFolder h t)))
  · exact Or.inr (Or.inr (Or.inr
      ⟨isSome_addFolder hsome t, destExists_false_addFolder hne t, hr⟩))

theorem stuck_moveFile {cfg : TypeCfg} {o : FsOracle} {fs : DirFS} {f : String}
    (h : Stuck cfg o fs f) {t m : String} (hm : f ≠ m) :
    Stuck cfg o (moveFile fs t m) f := by
  rcases h with h | ⟨he, hc⟩ | h | ⟨hsome, hne, hr⟩
  · exact Or.inl h
  · exact Or.inr (Or.inl ⟨existsDir_false_moveFile he t m, hc⟩)
  · exact Or.inr (Or.inr (Or.inl (destExists_moveFile h t m)))
  · exact Or.inr (Or.inr (Or.inr
      ⟨isSome_moveFile hsome t m, destExists_false_moveFile hne hm t, hr⟩))

theorem stuck_mono {cfg : TypeCfg} {o : FsOracle} {s : RunState} {f g : String}
    (hfg : f ≠ g) (h : Stuck cfg o s.fs f) :
    Stuck cfg o (typeStep cfg o s g).fs f := by
  unfold typeStep
  split
  · exact h
  · split
    · rcases moveStep_fs_cases o (typeOf cfg g) s g with hc | hc
      · rw [hc]; exact h
      · rw [hc]; exact stuck_moveFile h hfg
    · split
      · exact h
      · next hcf =>
          rcases moveStep_fs_cases o (typeOf cfg g)
            { s with fs := addFolder s.fs (typeOf cfg g) } g with hc | hc
          · rw [hc]
            exact stuck_addFolder h (by simpa using hcf)
          · rw [hc]
            exact stuck_moveFile (stuck_addFolder h (by simpa using hcf)) hfg

theorem stuck_self {cfg : TypeCfg} {o : FsOracle} {s : RunState} {g : String}
    (hnd : s.fs.files.Nodup)
    (hT : typeOf cfg g ∉ s.fs.files)
    (hsurv : g ∈ (typeStep cfg o s g).fs.files) :
    Stuck cfg o (typeStep cfg o s g).fs g := by
  by_cases hd : lower (extensionOf g) ∈ cfg.dangerous
  · rw [typeStep_dangerous hd]
    exact Or.inl hd
  · unfold typeStep at hsurv ⊢
    rw [if_neg hd] at hsurv ⊢
    by_cases hex : existsDir s.fs (typeOf cfg g) = true
    · rw [if_pos hex] at hsurv ⊢
      have hsome : (assocLookup s.fs.folders (typeOf cfg g)).isSome = true := by
        unfold existsDir at hex
        simpa [hT] using hex
      obtain ⟨c, hc⟩ := Option.isSome_iff_exists.mp hsome
      by_cases hconf : destExists s.fs (typeOf cfg g) g = true
      · rw [moveStep_of_destExists hconf] at hsurv ⊢
        exact Or.inr (Or.inr (Or.inl hconf))
      · by_cases hr : o.renameFails (typeOf cfg g) g = true
        · have hmv : moveStep o (typeOf cfg g) s g = bump s g := by
            simp [moveStep, hconf, hr]
          rw [hmv]
          exact Or.inr (Or.inr (Or.inr ⟨hsome, by simpa using hconf, hr⟩))
        · have hmv : moveStep o (typeOf cfg g) s g
              = { s with fs := moveFile s.fs (typeOf cfg g) g, moved := s.moved + 1 } := by
            simp [moveStep, hconf, hr, hc]
          rw [hmv] at hsurv
          have : g ∈ removeFile s.fs.files g := hsurv
          exact absurd this (not_mem_removeFile_self hnd g)
    · rw [if_neg hex] at hsurv ⊢
      have hexf : existsDir s.fs (typeOf cfg g) = false := by simpa using hex
      by_cases hcf : o.createFails (typeOf cfg g) = true
      · rw [if_pos hcf] at hsurv ⊢
        exact Or.inr (Or.inl ⟨hexf, hcf⟩)
      · rw [if_neg hcf] at hsurv ⊢
        have hnone : assocLookup s.fs.folders (typeOf cfg g) = none := by
          rcases hc : assocLookup s.fs.folders (typeOf cfg g) with _ | c
          · rfl
          · simp [existsDir, hc] at hexf
        have hlook : assocLookup (addFolder s.fs (typeOf cfg g)).folders (typeOf cfg g)
            = some [] := by
          rw [lookup_addFolder_of_none hnone]
          simp
        have hconf : destExists (addFolder s.fs (typeOf cfg g)) (typeOf cfg g) g = false := by
          simp [destExists, hlook]
        set s2 : RunState := { s with fs := addFolder s.fs (typeOf cfg g) } with hs2
        have hc2 : destExists s2.fs (typeOf cfg g) g = false := hconf
        have hlk : assocLookup s2.fs.folders (typeOf cfg g) = some [] := hlook
        have hsome2 : (assocLookup s2.fs.folders (typeOf cfg g)).isSome = true := by
          simp [hlk]
        by_cases hr : o.renameFails (typeOf cfg g) g = true
        · have hmv : moveStep o (typeOf cfg g) s2 g = bump s2 g := by
            simp [moveStep, hc2, hr]
          rw [hmv]
          exact Or.inr (Or.inr (Or.inr ⟨hsome2, hc2, hr⟩))
        · have hmv : moveStep o (typeOf cfg g) s2 g = { s2 with fs := moveFile s2.fs (typeOf cfg g) g, moved := s2.moved + 1 } := by
            simp [moveStep, hc2, hr, hlk]
          rw [hmv] at hsurv
          have hgg : g ∈ removeFile s.fs.files g := hsurv
          exact absurd hgg (not_mem_removeFile_self hnd g)

theorem typeStep_nodup {cfg : TypeCfg} {o : FsOracle} {s : RunState} {f : String}
    (h : s.fs.files.Nodup) : (typeStep cfg o s f).fs.files.Nodup := by
  unfold typeStep
  split
  · exact h
  · split
    · rcases moveStep_fs_cases o (typeOf cfg f) s f with hc | hc
      · rw [hc]; exact h
      · rw [hc]; exact nodup_removeFile h f
    · split
      · exact h
      · rcases moveStep_fs_cases o (typeOf cfg f)
          { s with fs := addFolder s.fs (typeOf cfg f) } f with hc | hc
        · rw [hc]; exact h
        · rw [hc]; exact nodup_removeFile h f

theorem run1_fold (cfg : TypeCfg) (o : FsOracle) (S : List String)
    (hS : ∀ a ∈ S, ∀ g ∈ S, a ≠ typeOf cfg g) :
    ∀ (L : List String) (s : RunState),
      s.fs.files.Nodup →
      (∀ a ∈ s.fs.files, a ∈ S) →
      (∀ g ∈ L, g ∈ S) →
      (∀ f ∈ s.fs.files, f ∈ L ∨ Stuck cfg o s.fs f) →
      ∀ f ∈ (L.foldl (typeStep cfg o) s).fs.files,
        Stuck cfg o (L.foldl (typeStep cfg o) s).fs f
  | [], s, _, _, _, hinv => by
      intro f hf
      rcases hinv f hf with h | h
      · simp at h
      · exact h
  | g :: L, s, hnd, hsub, hLS, hinv => by
      rw [List.foldl_cons]
      apply run1_fold cfg o S hS L (typeStep cfg o s g) (typeStep_nodup hnd)
        (fun a ha => hsub a (typeStep_files_sub ha))
        (fun x hx => hLS x (List.mem_cons_of_mem _ hx))
      intro f hf
      have hfs : f ∈ s.fs.files := typeStep_files_sub hf
      by_cases hfg : f = g
      · subst hfg
        right
        refine stuck_self hnd ?_ hf
        intro hmem
        exact hS _ (hsub _ hmem) f (hLS f (List.mem_cons_self _ _)) rfl
      · rcases hinv f hfs with hfL | hstuck
        · rcases List.mem_cons.mp hfL with heq | hfL2
          · exact absurd heq hfg
          · exact Or.inl hfL2
        · exact Or.inr (stuck_mono hfg hstuck)

theorem allStuck_fold (cfg : TypeCfg) (o : FsOracle) :
    ∀ (L : List String) (s : RunState),
      (∀ g ∈ L, Stuck cfg o s.fs g) →
      (L.foldl (typeStep cfg o) s).moved = s.moved
      ∧ (L.foldl (typeStep cfg o) s).fs = s.fs
  | [], _, _ => ⟨rfl, rfl⟩
  | g :: L, s, h => by
      rw [List.foldl_cons, stuck_step (h g (List.mem_cons_self _ _))]
      exact allStuck_fold cfg o L (bump s g)
        (fun x hx => h x (List.mem_cons_of_mem _ hx))

/-! ## Claim theorems -/

/-- C2: in the by-type run and in both branches of the by-name run, a move
whose destination name already exists is skipped — the step only bumps the
skip counters, so the source file stays in the directory listing and the
destination folder is untouched — and consequently a file present in any
destination folder before a run is still there after it: no existing
destination file is ever overwritten. -/
theorem no_overwrite_ever :
    (∀ (o : FsOracle) (d : String) (s : RunState) (f : String),
        destExists s.fs d f = true → moveStep o d s f = bump s f)
    ∧ (∀ (cfg : TypeCfg) (o : FsOracle) (fs : DirFS) (d g : String),
        destExists fs d g = true → destExists (cleanFilesByType cfg o fs).fs d g = true)
    ∧ (∀ (o : FsOracle) (ignore : List (List Char)) (fs : DirFS) (name : String)
        (d g : String),
        destExists fs d g = true →
          destExists (cleanFilesByName o ignore fs name).fs d g = true) := by
  refine ⟨fun o d s f h => moveStep_of_destExists h, fun cfg o fs d g h => ?_, ?_⟩
  · exact foldl_pres (P := fun st => destExists st.fs d g = true) _
      (fun s x hs => typeStep_destExists_mono cfg o hs) _ _ h
  · intro o ignore fs name d g h
    unfold cleanFilesByName
    split
    · exact foldl_pres (P := fun st => destExists st.fs d g = true) _
        (fun s x hs => tokenStep_destExists_mono o ignore hs) _ _ h
    · unfold byNameExplicit
      split
      · exact h
      · split
        · exact foldl_pres (P := fun st => destExists st.fs d g = true) _
            (fun s x hs => moveStep_destExists_mono hs) _ _ h
        · split
          · exact h
          · exact foldl_pres (P := fun st => destExists st.fs d g = true) _
              (fun s x hs => moveStep_destExists_mono hs) _ _ (destExists_addFolder h _)

/-- Witness for C2 at concrete inputs: a same-named file in the destination
makes the move attempt a pure skip, and a by-type run keeps a pre-existing
destination file in place. -/
theorem no_overwrite_ever_witness :
    moveStep ⟨fun _ => false, fun _ _ => false⟩ "dst"
        ⟨⟨["a.txt"], [("dst", ["a.txt"])]⟩, 0, 0, []⟩ "a.txt"
      = bump ⟨⟨["a.txt"], [("dst", ["a.txt"])]⟩, 0, 0, []⟩ "a.txt"
    ∧ destExists (cleanFilesByType ⟨[], [(".txt", "Documents")]⟩
        ⟨fun _ => false, fun _ _ => false⟩
        ⟨["a.txt"], [("Documents", ["a.txt"])]⟩).fs "Documents" "a.txt" = true :=
  ⟨no_overwrite_ever.1 _ "dst" _ "a.txt" (by decide),
   no_overwrite_ever.2.1 ⟨[], [(".txt", "Documents")]⟩ _ _ "Documents" "a.txt" (by decide)⟩

/-- C5: a ranked token whose live re-scan finds fewer than two matching
files is skipped entirely — the state is returned unchanged, so no folder
is created and no file is moved for that token; in particular a token
contained in at most one file name never produces a destination folder. -/
theorem token_skipped_below_threshold (o : FsOracle) (ignore : List (List Char))
    (s : RunState) (tok : List Char)
    (h : (tokenMatches ignore s.fs tok).length < 2) :
    tokenStep o ignore s tok = s := by
  simp [tokenStep, h]

/-- Witness for C5: a token matching exactly one file leaves the state
untouched. -/
theorem token_skipped_below_threshold_witness :
    tokenStep ⟨fun _ => false, fun _ _ => false⟩ []
        ⟨⟨["trip1.jpg"], []⟩, 0, 0, []⟩ "trip".data
      = ⟨⟨["trip1.jpg"], []⟩, 0, 0, []⟩ :=
  token_skipped_below_threshold _ _ _ _ (by decide)

/-- C8: when creating a ranked token folder fails, only that token group is
aborted: the step returns the state unchanged (no file moved, no folder
recorded) and the fold simply continues with the remaining ranked tokens. -/
theorem token_create_failure_skips_group (o : FsOracle) (ignore : List (List Char))
    (s : RunState) (tok : List Char)
    (h2 : 2 ≤ (tokenMatches ignore s.fs tok).length)
    (h3 : existsDir s.fs ⟨tok⟩ = false)
    (h4 : o.createFails ⟨tok⟩ = true) :
    tokenStep o ignore s tok = s
    ∧ ∀ rest : List (List Char),
        (tok :: rest).foldl (tokenStep o ignore) s = rest.foldl (tokenStep o ignore) s := by
  have hlt : ¬ (tokenMatches ignore s.fs tok).length < 2 := by omega
  have hstep : tokenStep o ignore s tok = s := by simp [tokenStep, hlt, h3, h4]
  exact ⟨hstep, fun rest => by simp [List.foldl_cons, hstep]⟩

/-- Witness for C8: folder creation failing for a token with two matches
leaves the state unchanged. -/
theorem token_create_failure_skips_group_witness :
    tokenStep ⟨fun _ => true, fun _ _ => false⟩ []
        ⟨⟨["trip1.jpg", "trip2.jpg"], []⟩, 0, 0, []⟩ "trip".data
      = ⟨⟨["trip1.jpg", "trip2.jpg"], []⟩, 0, 0, []⟩ :=
  (token_create_failure_skips_group _ _ _ _ (by decide) (by decide) (by decide)).1

/-- C9: in explicit-name mode, when no regular file name contains the
search string, the operation returns the zero report and the directory
state unchanged: no folder is created and no file is moved. -/
theorem explicit_zero_match (o : FsOracle) (fs : DirFS) (name : String)
    (h : ∀ f ∈ fs.files, substrOf (lower name).data (lower f).data = false) :
    byNameExplicit o fs name = ⟨fs, 0, 0, []⟩ := by
  have hm : nameMatches fs name = [] := by
    refine List.filter_eq_nil_iff.mpr ?_
    intro a ha
    simp [h a ha]
  simp [byNameExplicit, hm]

/-- Witness for C9: a query matching nothing returns the directory unchanged
with the zero report. -/
theorem explicit_zero_match_witness :
    byNameExplicit ⟨fun _ => false, fun _ _ => false⟩ ⟨["zzz.txt"], []⟩ "abc"
      = ⟨⟨["zzz.txt"], []⟩, 0, 0, []⟩ :=
  explicit_zero_match _ _ _ (by decide)

/-- C6: a regular file whose lowercased extension is in the dangerous set is
skipped by the by-type run regardless of the category mapping: it still
appears in the directory listing afterwards and its name is recorded in the
skipped-file list. -/
theorem dangerous_skipped_in_place (cfg : TypeCfg) (o : FsOracle) (fs : DirFS)
    (f : String) (h1 : fs.files.Nodup) (hf : f ∈ fs.files)
    (hd : lower (extensionOf f) ∈ cfg.dangerous) :
    f ∈ (cleanFilesByType cfg o fs).fs.files
    ∧ f ∈ (cleanFilesByType cfg o fs).skippedFiles := by
  obtain ⟨L1, L2, hsplit⟩ := List.append_of_mem hf
  have hnd : (L1 ++ f :: L2).Nodup := hsplit ▸ h1
  obtain ⟨hnd1, hnd2, hdisj⟩ := List.nodup_append.mp hnd
  have hf1 : f ∉ L1 := fun hmem => hdisj hmem (List.mem_cons_self _ _)
  have hf2 : f ∉ L2 := (List.nodup_cons.mp hnd2).1
  unfold cleanFilesByType
  rw [hsplit, List.foldl_append, List.foldl_cons]
  rw [typeStep_dangerous hd]
  constructor
  · exact foldl_typeStep_keep cfg o L2 _ hf2
      (foldl_typeStep_keep cfg o L1 ⟨fs, 0, 0, []⟩ hf1 hf)
  · exact foldl_pres (P := fun st => f ∈ st.skippedFiles) _
      (fun s x hs => typeStep_skippedFiles_mono s x hs) L2 _
      (List.mem_append_right _ (List.mem_singleton.mpr rfl))

/-- Witness for C6: with the fallback dangerous list the file report.exe is
left in place and recorded, while report.txt is processed normally. -/
theorem dangerous_skipped_in_place_witness :
    "report.exe" ∈ (cleanFilesByType ⟨DEFAULT_DANGEROUS_EXTS, [(".txt", "Documents")]⟩
        ⟨fun _ => false, fun _ _ => false⟩
        ⟨["report.exe", "report.txt"], []⟩).fs.files
    ∧ "report.exe" ∈ (cleanFilesByType ⟨DEFAULT_DANGEROUS_EXTS, [(".txt", "Documents")]⟩
        ⟨fun _ => false, fun _ _ => false⟩
        ⟨["report.exe", "report.txt"], []⟩).skippedFiles :=
  dangerous_skipped_in_place _ _ _ _ (by decide) (by decide) (by decide)

/-- C1 counterexample: for the stem "ab_cd" the two maximal runs "ab" and
"cd" are each shorter than 4, so the claimed tokenization (accumulator reset
at every boundary) emits no sub-token; the code does not clear the
accumulator when the guard fails, so the runs merge and the token "abcd" is
emitted. -/
theorem tokenizer_counterexample :
    "abcd".data ∈ stemEmissions [] "ab_cd"
    ∧ "abcd".data ∉ specStemCandidates [] "ab_cd" := by
  decide

/-- C1 amended: every emitted candidate passes the length-4 and stop-word
guard, and the accumulator is reset only when a run is emitted, so runs that
fail the guard at a boundary merge with the following run; in particular
when every maximal alphanumeric run of the lowercased stem passes the guard,
the emitted candidates are exactly the maximal runs followed by the
whole-stem candidate. -/
theorem tokenizer_amended :
    (∀ (ignore : List (List Char)) (stem : String) (t : List Char),
        t ∈ stemEmissions ignore stem → keep ignore t = true)
    ∧ (∀ (ignore : List (List Char)) (stem : String),
        (∀ r ∈ maximalRuns (lowerStr stem.data), keep ignore r = true) →
        stemEmissions ignore stem = maximalRuns (lowerStr stem.data) ++
          (if keep ignore (lowerStr stem.data) then [lowerStr stem.data] else [])) := by
  constructor
  · exact fun ignore stem t h => stemEmissions_sound ignore stem t h
  · intro ignore stem h
    unfold stemEmissions maximalRuns
    rw [emitTokens_eq_runs ignore (lowerStr stem.data) [] h]

/-- Witness for C1 amended at the stem "abcd_efgh": both runs pass the
guard, so the candidates are the two runs plus the whole stem. -/
theorem tokenizer_amended_witness :
    stemEmissions [] "abcd_efgh" = ["abcd".data, "efgh".data, "abcd_efgh".data] :=
  (tokenizer_amended.2 [] "abcd_efgh" (by decide)).trans (by decide)

/-- C3 counterexample: the single file "abcd.txt" emits the token "abcd"
twice — once as the final accumulated run and once as the whole stem — so
the token reaches count 2 and becomes a ranking candidate although it was
extracted from exactly one file. -/
theorem singleton_file_candidate :
    allEmissions [] ["abcd.txt"] = ["abcd".data, "abcd".data]
    ∧ ("abcd".data, 2) ∈ commonTokens (allEmissions [] ["abcd.txt"]) := by
  decide

/-- C3 amended: a token is a ranking candidate exactly when its total number
of emission events over the listing is at least two, where every boundary
emission, the final-run emission and the whole-stem emission count
separately — so one file alone can make a token a candidate. -/
theorem candidate_iff_two_emissions (ignore : List (List Char)) (files : List String)
    (t : List Char) :
    (∃ c, (t, c) ∈ commonTokens (allEmissions ignore files))
      ↔ 2 ≤ countTok (allEmissions ignore files) t := by
  constructor
  · rintro ⟨c, hc⟩
    obtain ⟨u, hu, he⟩ := List.mem_filterMap.mp hc
    by_cases h2 : 2 ≤ countTok (allEmissions ignore files) u
    · rw [if_pos h2] at he
      simp only [Option.some.injEq, Prod.mk.injEq] at he
      rcases he with ⟨rfl, rfl⟩
      exact h2
    · rw [if_neg h2] at he
      simp at he
  · intro h2
    refine ⟨countTok (allEmissions ignore files) t, List.mem_filterMap.mpr ⟨t, ?_, ?_⟩⟩
    · exact mem_mapKeys.mpr (mem_of_countTok_pos (by omega))
    · rw [if_pos h2]

/-- C4 counterexample: with the listing ["dddd.txt", "aaaa.txt"] the tied
tokens dddd (encountered first) and aaaa both have count 2; the candidate
vector is built from a std::map, i.e. in lexicographic order, so even under
the stable model of the (unstable) std::sort the ranked list is aaaa before
dddd — not the claimed encounter order. -/
theorem ranking_not_encounter_order :
    rankedTokens [] ["dddd.txt", "aaaa.txt"] = [("aaaa".data, 2), ("dddd".data, 2)]
    ∧ claimRanked (allEmissions [] ["dddd.txt", "aaaa.txt"])
        = [("dddd".data, 2), ("aaaa".data, 2)]
    ∧ rankedTokens [] ["dddd.txt", "aaaa.txt"]
        ≠ claimRanked (allEmissions [] ["dddd.txt", "aaaa.txt"]) := by
  refine ⟨by decide, by decide, by decide⟩

/-- C4 amended: the ranked list used to materialize groups is ordered by
occurrence count descending and holds at most ten entries, each a candidate
of the frequency map; the tie order is not the encounter order (the sort
input is in std::map lexicographic order and std::sort guarantees no
stability). -/
theorem ranking_sorted_top_ten (ignore : List (List Char)) (files : List String) :
    (rankedTokens ignore files).Pairwise (fun x y => y.2 ≤ x.2)
    ∧ (rankedTokens ignore files).length ≤ 10
    ∧ ∀ p ∈ rankedTokens ignore files, p ∈ commonTokens (allEmissions ignore files) := by
  refine ⟨?_, ?_, ?_⟩
  · unfold rankedTokens
    exact pairwise_take _ _ (pairwise_sortByCount _)
  · unfold rankedTokens
    rw [List.length_take]
    exact le_trans (Nat.min_le_left _ _) (Nat.min_le_left _ _)
  · intro p hp
    unfold rankedTokens at hp
    exact mem_sortByCount.mp (List.take_subset _ _ hp)

/-- C7 counterexample: the directory contains the regular file Images next
to a.jpg (whose category is Images).  In the first run the existence check
for the destination folder is satisfied by the *file* named Images, so the
rename of a.jpg fails and it stays; the file Images itself has no extension
and is moved into Other.  In the second run no entry named Images exists
any more, so the folder Images is created and a.jpg is moved: the second
run moves one file, not zero. -/
theorem byType_second_run_counterexample :
    (cleanFilesByType ⟨[], [(".jpg", "Images")]⟩ ⟨fun _ => false, fun _ _ => false⟩
      (cleanFilesByType ⟨[], [(".jpg", "Images")]⟩ ⟨fun _ => false, fun _ _ => false⟩
        ⟨["a.jpg", "Images"], []⟩).fs).moved = 1 := by
  decide

/-- C7 amended: provided the directory listing has no duplicate names and no
regular file bears the destination category name of any file in the listing,
a second by-type run over the same directory moves zero files and leaves the
directory state unchanged — every remaining file is skipped again for the
same persistent reason (dangerous extension, failing folder creation, name
conflict, or failing rename). -/
theorem byType_second_run_moves_nothing (cfg : TypeCfg) (o : FsOracle) (fs : DirFS)
    (h1 : fs.files.Nodup)
    (h2 : ∀ a ∈ fs.files, ∀ g ∈ fs.files, a ≠ typeOf cfg g) :
    (cleanFilesByType cfg o (cleanFilesByType cfg o fs).fs).moved = 0
    ∧ (cleanFilesByType cfg o (cleanFilesByType cfg o fs).fs).fs
        = (cleanFilesByType cfg o fs).fs := by
  have hpost : ∀ f ∈ (cleanFilesByType cfg o fs).fs.files,
      Stuck cfg o (cleanFilesByType cfg o fs).fs f := by
    unfold cleanFilesByType
    exact run1_fold cfg o fs.files h2 fs.files ⟨fs, 0, 0, []⟩ h1
      (fun a ha => ha) (fun g hg => hg) (fun f hf => Or.inl hf)
  exact allStuck_fold cfg o (cleanFilesByType cfg o fs).fs.files
    ⟨(cleanFilesByType cfg o fs).fs, 0, 0, []⟩ hpost

/-- Witness for C7 amended: a directory of ordinary files (including a
dangerous one) is fully settled by the first run; the second run moves
nothing. -/
theorem byType_second_run_moves_nothing_witness :
    (cleanFilesByType ⟨[".exe"], [(".jpg", "Images"), (".txt", "Documents")]⟩
        ⟨fun _ => false, fun _ _ => false⟩
        (cleanFilesByType ⟨[".exe"], [(".jpg", "Images"), (".txt", "Documents")]⟩
          ⟨fun _ => false, fun _ _ => false⟩
          ⟨["a.jpg", "b.jpg", "c.txt", "virus.exe"], []⟩).fs).moved = 0 :=
  (byType_second_run_moves_nothing
    ⟨[".exe"], [(".jpg", "Images"), (".txt", "Documents")]⟩
    ⟨fun _ => false, fun _ _ => false⟩
    ⟨["a.jpg", "b.jpg", "c.txt", "virus.exe"], []⟩ (by decide) (by decide)).1

/-- C10: in the by-type run and in both branches of the by-name run, each
increment of the skipped counter records exactly one file name, so at the
end of every run the skipped count equals the length of the skipped-file
list. -/
theorem skipped_count_matches_list (cfg : TypeCfg) (o : FsOracle)
    (ignore : List (List Char)) (fs : DirFS) (name : String) :
    (cleanFilesByType cfg o fs).skipped
        = (cleanFilesByType cfg o fs).skippedFiles.length
    ∧ (cleanFilesByName o ignore fs name).skipped
        = (cleanFilesByName o ignore fs name).skippedFiles.length := by
  constructor
  · exact foldl_pres _ (fun s x hs => typeStep_skip_len cfg o s x hs) _ _ rfl
  · unfold cleanFilesByName
    split
    · exact foldl_pres _ (fun s x hs => tokenStep_skip_len o ignore s x hs) _ _ rfl
    · unfold byNameExplicit
      split
      · rfl
      · split
        · exact foldl_pres _ (fun s x hs => moveStep_skip_len _ _ s x hs) _ _ rfl
        · split
          · rfl
          · exact foldl_pres _ (fun s x hs => moveStep_skip_len _ _ s x hs) _ _ rfl

end Clean
